/-
  Verification development for the wordcrack backend similarity pipeline.

  Embedded source files:
  * `build_similar_words.py` — the batch job: it loads (word, embedding) rows
    through an inner join of `words` and `word_embeddings`, normalizes the
    embedding matrix by its per-row L2 norms, computes the cosine similarity
    matrix as the normalized matrix times its transpose, overwrites the
    diagonal with -1.0 via np.fill_diagonal, selects the top TOP_K indices per
    row (np.argsort when TOP_K >= N, otherwise np.argpartition followed by
    np.argsort of the selected slice), and writes (base_word, similar_word,
    score) rows into MySQL: TRUNCATE + commit, then chunked
    INSERT ... ON DUPLICATE KEY UPDATE with a commit after every flushed chunk
    (flushed whenever the pending batch reaches BATCH_SIZE = 1000 rows) and a
    final commit for the remainder.
  * `app.py` — the online route POST /api/words/similar_db: strips the
    requested word, returns [] for a blank word, looks the word up in the
    `words` collection, returns [] when it is absent or has no `embedding`
    field, and otherwise runs a $vectorSearch with numCandidates = 200 and
    limit = top_k + 1, drops hits equal to the queried word, and truncates the
    result list to top_k entries.

  Modelling conventions: float scores are modelled as exact rationals (ℚ);
  the float non-finiteness produced by dividing by a zero norm is modelled by
  `Option ℚ` with `none` standing for a non-finite value (NaN/inf).  The
  contracts of np.argsort / np.argpartition guarantee only a sorted
  permutation resp. a partition around the k-th order statistic — they promise
  nothing about the relative order or choice of tied elements — so the
  selection step is embedded as a relation (`RowSel`) that holds for exactly
  the outputs those contracts allow.  SQL tables are association lists keyed
  by (base_word, similar_word); committed states observable by a concurrent
  reader are collected in an explicit trace.
-/
import Mathlib

namespace WordCrack

/-! ### Result Writer: the `similar_words` table -/

/-- A row of `similar_words`: (base_word, similar_word, score). -/
abbrev SWRow := String × String × ℚ

/-- The unique key `uq_base_sim (base_word, similar_word)`. -/
def rowKey (r : SWRow) : String × String := (r.1, r.2.1)

/-- The persisted table: a list of rows (insertion order). -/
abbrev SWTable := List SWRow

/-- The table right after `TRUNCATE TABLE similar_words`. -/
def emptyTable : SWTable := []

/-- `TRUNCATE TABLE similar_words` discards every prior row. -/
def truncateT (_ : SWTable) : SWTable := []

/-- One `INSERT ... ON DUPLICATE KEY UPDATE score = VALUES(score)`:
    if a row with the same (base_word, similar_word) key exists its score is
    overwritten, otherwise the row is appended. -/
def upsert (t : SWTable) (r : SWRow) : SWTable :=
  match t with
  | [] => [r]
  | x :: xs => if rowKey x = rowKey r then r :: xs else x :: upsert xs r

/-- `cursor.executemany` of the upsert statement over a batch of rows. -/
def runInserts (t : SWTable) (rs : List SWRow) : SWTable :=
  rs.foldl upsert t

/-- Reading the score stored for a key (the first row carrying the key). -/
def lookupT (t : SWTable) (k : String × String) : Option SWRow :=
  t.find? (fun x => decide (rowKey x = k))

/-- The last row written for key `k` in a batch, if any. -/
def lastWrite (rs : List SWRow) (k : String × String) : Option SWRow :=
  rs.foldl (fun acc r => if rowKey r = k then some r else acc) none

theorem lookupT_upsert_same (t : SWTable) (r : SWRow) :
    lookupT (upsert t r) (rowKey r) = some r := by
  induction t with
  | nil => simp [upsert, lookupT]
  | cons x xs ih =>
    by_cases h : rowKey x = rowKey r
    · simp [upsert, h, lookupT]
    · simpa [upsert, h, lookupT] using ih

theorem lookupT_upsert_ne (t : SWTable) (r : SWRow) (k : String × String)
    (h : k ≠ rowKey r) : lookupT (upsert t r) k = lookupT t k := by
  have hr : rowKey r ≠ k := fun hh => h hh.symm
  induction t with
  | nil => simp [upsert, lookupT, hr]
  | cons x xs ih =>
    by_cases hx : rowKey x = rowKey r
    · have hxk : rowKey x ≠ k := by rw [hx]; exact hr
      simp [upsert, hx, lookupT, hr, hxk]
    · by_cases hk : rowKey x = k
      · simp [upsert, hx, lookupT, hk, h]
      · simpa [upsert, hx, lookupT, hk] using ih

theorem lookupT_runInserts (rs : List SWRow) (t : SWTable) (k : String × String) :
    lookupT (runInserts t rs) k
      = rs.foldl (fun acc r => if rowKey r = k then some r else acc) (lookupT t k) := by
  induction rs generalizing t with
  | nil => rfl
  | cons r rs ih =>
    show lookupT (runInserts (upsert t r) rs) k = _
    rw [ih]
    by_cases h : rowKey r = k
    · rw [List.foldl, if_pos h, ← h, lookupT_upsert_same]
    · rw [List.foldl, if_neg h, lookupT_upsert_ne]
      exact fun hk => h hk.symm

theorem runInserts_append (t : SWTable) (a b : List SWRow) :
    runInserts t (a ++ b) = runInserts (runInserts t a) b := by
  simp [runInserts]

/-- C7: when the same (base, neighbor) pair is written more than once in one
    run, the persisted score is the one of the last write — overwrite on
    conflict, never a silent drop. -/
theorem c7_duplicate_pair_overwritten (rs : List SWRow) (k : String × String)
    (r : SWRow) (h : lastWrite rs k = some r) :
    lookupT (runInserts emptyTable rs) k = some r := by
  rw [lookupT_runInserts]
  have h0 : lookupT emptyTable k = none := rfl
  rw [h0]
  exact h

/-- Witness for C7: the pair ("cat", "dog") is written twice with scores 1
    and then 0; the persisted row carries the later score 0. -/
theorem c7_duplicate_pair_overwritten_witness :
    lookupT (runInserts emptyTable [("cat", "dog", (1 : ℚ)), ("cat", "dog", (0 : ℚ))])
        ("cat", "dog") = some ("cat", "dog", (0 : ℚ)) :=
  c7_duplicate_pair_overwritten
    [("cat", "dog", (1 : ℚ)), ("cat", "dog", (0 : ℚ))] ("cat", "dog")
    ("cat", "dog", (0 : ℚ)) (by decide)

/-! ### Result Writer: TRUNCATE + chunked commit loop -/

/-- `BATCH_SIZE = 1000`. -/
def flushThreshold : ℕ := 1000

/-- The write loop of `build_similar_words.py`: rows are appended to
    `batch_values` one base word at a time (one group per word); whenever the
    pending batch reaches `BATCH_SIZE` it is flushed with `executemany` and
    committed; a nonempty remainder is flushed and committed at the end.
    Returns (the list of table states committed inside the loop, the final
    table). -/
def writerLoop (t : SWTable) (buf : List SWRow) :
    List (List SWRow) → List SWTable × SWTable
  | [] =>
    if buf = [] then ([], t)
    else ([runInserts t buf], runInserts t buf)
  | g :: gs =>
    if flushThreshold ≤ (buf ++ g).length then
      ((runInserts t (buf ++ g)) :: (writerLoop (runInserts t (buf ++ g)) [] gs).1,
        (writerLoop (runInserts t (buf ++ g)) [] gs).2)
    else writerLoop t (buf ++ g) gs

/-- Every committed table state a concurrent reader can observe during one
    batch run: the prior table (before the run), the empty table (the
    `TRUNCATE` is committed on its own), and then the state after each
    committed chunk. -/
def writerTrace (groups : List (List SWRow)) (prior : SWTable) : List SWTable :=
  prior :: truncateT prior :: (writerLoop (truncateT prior) [] groups).1

/-- The table left behind by one full batch run over `prior`. -/
def batchRun (groups : List (List SWRow)) (prior : SWTable) : SWTable :=
  (writerLoop (truncateT prior) [] groups).2

theorem writerLoop_final (gs : List (List SWRow)) (t : SWTable) (buf : List SWRow) :
    (writerLoop t buf gs).2 = runInserts t (buf ++ gs.flatten) := by
  induction gs generalizing t buf with
  | nil =>
    by_cases h : buf = []
    · simp [writerLoop, h, runInserts]
    · simp [writerLoop, h]
  | cons g gs ih =>
    simp only [writerLoop]
    by_cases h : flushThreshold ≤ (buf ++ g).length
    · rw [if_pos h]
      rw [ih, List.flatten_cons, ← List.append_assoc, List.nil_append, ← runInserts_append]
    · rw [if_neg h, ih, List.flatten_cons, ← List.append_assoc]

theorem take_length_add (a b : List SWRow) (n : ℕ) :
    (a ++ b).take (a.length + n) = a ++ b.take n := by
  induction a with
  | nil => simp
  | cons x xs ih => simpa [Nat.succ_add] using ih

theorem writerLoop_states (gs : List (List SWRow)) (t : SWTable) (buf : List SWRow) :
    ∀ s ∈ (writerLoop t buf gs).1,
      ∃ n, s = runInserts t ((buf ++ gs.flatten).take n) := by
  induction gs generalizing t buf with
  | nil =>
    by_cases h : buf = []
    · simp [writerLoop, h]
    · intro s hs
      simp only [writerLoop, if_neg h, List.mem_singleton] at hs
      refine ⟨buf.length, ?_⟩
      simp [hs]
  | cons g gs ih =>
    intro s hs
    simp only [writerLoop] at hs
    by_cases h : flushThreshold ≤ (buf ++ g).length
    · rw [if_pos h] at hs
      rcases (List.mem_cons).mp hs with hs | hs
      · refine ⟨(buf ++ g).length, ?_⟩
        rw [List.flatten_cons, ← List.append_assoc]
        rw [show ((buf ++ g) ++ gs.flatten).take (buf ++ g).length
              = ((buf ++ g) ++ gs.flatten).take ((buf ++ g).length + 0) by rw [Nat.add_zero]]
        rw [take_length_add, List.take_zero, List.append_nil]
        exact hs
      · rcases ih (runInserts t (buf ++ g)) [] s hs with ⟨n, hn⟩
        refine ⟨(buf ++ g).length + n, ?_⟩
        rw [List.flatten_cons, ← List.append_assoc, take_length_add, runInserts_append]
        simpa using hn
    · rw [if_neg h] at hs
      rcases ih t (buf ++ g) s hs with ⟨n, hn⟩
      refine ⟨n, ?_⟩
      rw [List.flatten_cons, ← List.append_assoc]
      exact hn

theorem writerLoop_last (gs : List (List SWRow)) (t : SWTable) (buf : List SWRow) :
    ((writerLoop t buf gs).1 = [] ∧ (writerLoop t buf gs).2 = t ∧ buf ++ gs.flatten = [])
    ∨ (writerLoop t buf gs).1.getLast? = some ((writerLoop t buf gs).2) := by
  induction gs generalizing t buf with
  | nil =>
    by_cases h : buf = []
    · exact Or.inl (by simp [writerLoop, h])
    · exact Or.inr (by simp [writerLoop, h])
  | cons g gs ih =>
    simp only [writerLoop]
    by_cases h : flushThreshold ≤ (buf ++ g).length
    · rw [if_pos h]
      rcases ih (runInserts t (buf ++ g)) [] with ⟨h1, h2, _⟩ | hlast
      · exact Or.inr (by rw [h1, h2]; rfl)
      · refine Or.inr ?_
        show (runInserts t (buf ++ g)
              :: (writerLoop (runInserts t (buf ++ g)) [] gs).1).getLast?
            = some (writerLoop (runInserts t (buf ++ g)) [] gs).2
        cases hc : (writerLoop (runInserts t (buf ++ g)) [] gs).1 with
        | nil => rw [hc] at hlast; simp at hlast
        | cons a l =>
          rw [List.getLast?_cons_cons]
          rw [hc] at hlast
          exact hlast
    · rw [if_neg h]
      rcases ih t (buf ++ g) with ⟨h1, h2, h3⟩ | hlast
      · refine Or.inl ⟨h1, h2, ?_⟩
        rw [List.flatten_cons, ← List.append_assoc]
        exact h3
      · exact Or.inr hlast

/-- C1 counterexample: with one prior row and a one-row batch, the committed
    states a concurrent reader can observe are the prior table, the EMPTY
    table (after the truncate commit), and the final table — the empty state
    equals neither the prior result set nor the new one, so the run is not
    atomic at the full-table level, and a failure after the truncate commit
    leaves the prior rows lost. -/
theorem c1_not_atomic_counterexample :
    writerTrace [[("alpha", "gamma", (1 : ℚ))]] [("alpha", "beta", (1 : ℚ))]
        = [[("alpha", "beta", (1 : ℚ))], emptyTable, [("alpha", "gamma", (1 : ℚ))]]
    ∧ emptyTable ≠ [("alpha", "beta", (1 : ℚ))]
    ∧ emptyTable ≠ [("alpha", "gamma", (1 : ℚ))] := by
  refine ⟨rfl, ?_, ?_⟩ <;> decide

/-- C1 amended: the writer is a truncate-then-refill: the trace starts with
    the prior table, then the committed empty table, every state committed
    inside the loop is the table built from a take-n slice of the computed
    rows, and the last committed state is exactly the table built from all
    computed rows (so only the final state matches the claim's contract). -/
theorem c1_amended_truncate_then_refill (groups : List (List SWRow)) (prior : SWTable) :
    writerTrace groups prior
        = prior :: emptyTable :: (writerLoop emptyTable [] groups).1
    ∧ (∀ s ∈ (writerLoop emptyTable [] groups).1,
        ∃ n, s = runInserts emptyTable (groups.flatten.take n))
    ∧ (writerTrace groups prior).getLast?
        = some (runInserts emptyTable groups.flatten) := by
  refine ⟨rfl, ?_, ?_⟩
  · intro s hs
    simpa using writerLoop_states groups emptyTable [] s hs
  · rcases writerLoop_last groups emptyTable [] with ⟨h1, _, h3⟩ | hlast
    · have hj : groups.flatten = [] := by simpa using h3
      show (prior :: emptyTable :: (writerLoop emptyTable [] groups).1).getLast?
          = some (runInserts emptyTable groups.flatten)
      rw [h1, hj]
      rfl
    · have hfin : (writerLoop emptyTable [] groups).2
          = runInserts emptyTable groups.flatten := by
        simpa using writerLoop_final groups emptyTable []
      show (prior :: emptyTable :: (writerLoop emptyTable [] groups).1).getLast?
          = some (runInserts emptyTable groups.flatten)
      cases hc : (writerLoop emptyTable [] groups).1 with
      | nil => rw [hc] at hlast; simp at hlast
      | cons a l =>
        rw [List.getLast?_cons_cons, List.getLast?_cons_cons]
        rw [hc] at hlast
        rw [hlast, hfin]

/-- Witness for C1's amended theorem: for a concrete one-row batch the last
    committed state holds exactly the computed row. -/
theorem c1_amended_truncate_then_refill_witness :
    (writerTrace [[("alpha", "gamma", (1 : ℚ))]] [("alpha", "beta", (1 : ℚ))]).getLast?
      = some (runInserts emptyTable [("alpha", "gamma", (1 : ℚ))]) := by
  have h := (c1_amended_truncate_then_refill [[("alpha", "gamma", (1 : ℚ))]]
    [("alpha", "beta", (1 : ℚ))]).2.2
  simpa using h

/-! ### Similarity Engine: normalization and the similarity matrix -/

/-- Dot product of two equally long rows (trailing entries of a longer row are
    ignored, as with a well-formed rectangular matrix they never occur). -/
def dotQ (a b : List ℚ) : ℚ :=
  (List.zipWith (fun x y => x * y) a b).sum

/-- Squared L2 norm of a row. -/
def normSq (a : List ℚ) : ℚ := dotQ a a

/-- `ns` is the vector produced by `np.linalg.norm(emb_matrix, axis=1)`:
    entry i is the nonnegative square root of the squared L2 norm of row i. -/
def IsNorms (emb : List (List ℚ)) (ns : List ℚ) : Prop :=
  ns.length = emb.length ∧
    ∀ i < emb.length, 0 ≤ ns.getD i 0 ∧ ns.getD i 0 * ns.getD i 0 = normSq (emb.getD i [])

/-- `emb_norm = emb_matrix / norms`: every row divided entrywise by its norm. -/
def normalizeQ (emb : List (List ℚ)) (ns : List ℚ) : List (List ℚ) :=
  List.zipWith (fun row n => row.map (fun x => x / n)) emb ns

/-- `sim_matrix = emb_norm @ emb_norm.T`: the Gram matrix of the rows. -/
def gramQ (u : List (List ℚ)) : List (List ℚ) :=
  u.map (fun r => u.map (fun s => dotQ r s))

/-- The similarity matrix computed by the script (before the diagonal fill). -/
def simMatrixQ (emb : List (List ℚ)) (ns : List ℚ) : List (List ℚ) :=
  gramQ (normalizeQ emb ns)

/-- `np.fill_diagonal(sim_matrix, -1.0)`, row by row from index `i` up. -/
def fillDiagFrom (i : ℕ) : List (List ℚ) → List (List ℚ)
  | [] => []
  | row :: rest => row.set i (-1) :: fillDiagFrom (i + 1) rest

/-- `np.fill_diagonal(sim_matrix, -1.0)`: entry (i, i) becomes -1.0. -/
def fillDiag (m : List (List ℚ)) : List (List ℚ) := fillDiagFrom 0 m

/-! ### Similarity Engine: top-K selection

The selection step uses `np.argsort` and `np.argpartition`, whose contracts
only guarantee a sorted permutation resp. a partition around the k-th order
statistic; they say nothing about tied values (the default sort kind is an
unstable introsort).  The step is therefore embedded as a relation holding
for exactly the outputs allowed by those contracts. -/

/-- Value of row `v` at index `a` (rows are dense, so `a` is in bounds at
    every use; the default only makes the function total). -/
def vAt (v : List ℚ) (a : ℕ) : ℚ := v.getD a 0

/-- The index list visits values of `v` in non-increasing order. -/
def SortedDescBy (v : List ℚ) (idx : List ℕ) : Prop :=
  idx.Pairwise (fun a b => vAt v b ≤ vAt v a)

/-- Contract of `np.argsort(-sims)`: some permutation of all row indices
    ordered by non-increasing similarity. -/
def IsArgsortDesc (v : List ℚ) (idx : List ℕ) : Prop :=
  idx.Perm (List.range v.length) ∧ SortedDescBy v idx

/-- Contract of `np.argpartition(-sims, K)[:K]`: `K` distinct valid indices
    whose values dominate every left-out index. -/
def IsTopKSet (K : ℕ) (v : List ℚ) (sel : List ℕ) : Prop :=
  sel.length = K ∧ sel.Nodup ∧ (∀ a ∈ sel, a < v.length) ∧
    ∀ a ∈ sel, ∀ b, b < v.length → b ∉ sel → vAt v b ≤ vAt v a

/-- Contract of `top_idx = top_idx[np.argsort(-sims[top_idx])]`: an
    argpartition selection re-ordered by non-increasing similarity. -/
def IsRowSel (K : ℕ) (v : List ℚ) (out : List ℕ) : Prop :=
  IsTopKSet K v out ∧ SortedDescBy v out

/-- The per-row branch of the script: full argsort when `TOP_K >= N`, else
    argpartition followed by argsort of the selected slice. -/
def RowSel (K N : ℕ) (v : List ℚ) (out : List ℕ) : Prop :=
  if N ≤ K then IsArgsortDesc v out else IsRowSel K v out

/-- `out` is an output the selection loop of `build_similar_words.py` can
    produce on the diagonal-filled similarity matrix of `m` with `TOP_K = K`. -/
def SimSelect (K : ℕ) (m : List (List ℚ)) (out : List (List ℕ)) : Prop :=
  out.length = m.length ∧
    ∀ i < m.length, RowSel K m.length ((fillDiag m).getD i []) (out.getD i [])

instance (v : List ℚ) (idx : List ℕ) : Decidable (SortedDescBy v idx) :=
  inferInstanceAs (Decidable (idx.Pairwise fun a b => vAt v b ≤ vAt v a))

instance (v : List ℚ) (idx : List ℕ) : Decidable (IsArgsortDesc v idx) :=
  inferInstanceAs (Decidable (And _ _))

instance (K : ℕ) (v : List ℚ) (sel : List ℕ) : Decidable (IsTopKSet K v sel) :=
  inferInstanceAs (Decidable (And _ (And _ (And _ _))))

instance (K : ℕ) (v : List ℚ) (out : List ℕ) : Decidable (IsRowSel K v out) :=
  inferInstanceAs (Decidable (And _ _))

instance (K N : ℕ) (v : List ℚ) (out : List ℕ) : Decidable (RowSel K N v out) := by
  unfold RowSel
  exact inferInstance

instance (K : ℕ) (m : List (List ℚ)) (out : List (List ℕ)) :
    Decidable (SimSelect K m out) :=
  inferInstanceAs (Decidable (And _ _))

/-- The script's `TOP_K`. -/
def TOP_K : ℕ := 5

/-- The flat rows appended for base word `i`: `(words[i], words[j], sims[j])`
    for each selected `j`, one group per base word. -/
def rowsOfSelection (ws : List String) (m : List (List ℚ)) (out : List (List ℕ)) :
    List (List SWRow) :=
  (List.range out.length).map (fun i =>
    (out.getD i []).map (fun j =>
      (ws.getD i "", ws.getD j "", vAt ((fillDiag m).getD i []) j)))

/-- C9: the batch pipeline is idempotent — the rows computed from an
    unchanged corpus rebuild exactly the same table whatever was persisted
    before, so a second run reproduces the first run's result set, row for
    row and score for score. -/
theorem c9_batch_idempotent (ws : List String) (m : List (List ℚ))
    (out : List (List ℕ)) (t t' : SWTable) :
    batchRun (rowsOfSelection ws m out) (batchRun (rowsOfSelection ws m out) t)
        = batchRun (rowsOfSelection ws m out) t
    ∧ batchRun (rowsOfSelection ws m out) t = batchRun (rowsOfSelection ws m out) t'
    ∧ ∀ k, lookupT (batchRun (rowsOfSelection ws m out) t) k
        = lastWrite (rowsOfSelection ws m out).flatten k := by
  refine ⟨rfl, rfl, ?_⟩
  intro k
  show lookupT ((writerLoop emptyTable [] (rowsOfSelection ws m out)).2) k = _
  rw [writerLoop_final, List.nil_append, lookupT_runInserts]
  rfl

/-! ### Claims C2 and C3: the diagonal fill and the K >= N branch -/

theorem fillDiagFrom_length (j : ℕ) (m : List (List ℚ)) :
    (fillDiagFrom j m).length = m.length := by
  induction m generalizing j with
  | nil => rfl
  | cons row rest ih => simp [fillDiagFrom, ih]

theorem fillDiagFrom_getD (j i : ℕ) (m : List (List ℚ)) (hi : i < m.length) :
    (fillDiagFrom j m).getD i [] = (m.getD i []).set (j + i) (-1) := by
  induction m generalizing j i with
  | nil => simp at hi
  | cons row rest ih =>
    cases i with
    | zero => simp [fillDiagFrom]
    | succ i =>
      have hi2 : i < rest.length := by simpa using hi
      have := ih (j + 1) i hi2
      simpa [fillDiagFrom, Nat.add_assoc, Nat.add_comm 1 i] using this

theorem fillDiag_getD (i : ℕ) (m : List (List ℚ)) (hi : i < m.length) :
    (fillDiag m).getD i [] = (m.getD i []).set i (-1) := by
  simpa using fillDiagFrom_getD 0 i m hi

theorem fillDiag_row_length (i : ℕ) (m : List (List ℚ)) (hi : i < m.length) :
    ((fillDiag m).getD i []).length = (m.getD i []).length := by
  rw [fillDiag_getD i m hi, List.length_set]

/-- The 2-word corpus on which C2 fails: two orthogonal unit embeddings. -/
def c2emb : List (List ℚ) := [[1, 0], [0, 1]]

/-- The (unique) output the selection loop can produce on `c2emb`. -/
def c2out : List (List ℕ) := [[1, 0], [0, 1]]

/-- C2 is violated by the code: on a 2-word corpus of orthogonal unit
    vectors, with the script's `TOP_K = 5`, the diagonal sentinel is exactly
    -1.0 (not strictly below -1, although the code's own comment says -inf),
    and the selection loop (the `TOP_K >= N` argsort branch returns the whole
    index range) lists word 0 as its own neighbor. -/
theorem c2_self_neighbor_code_bug :
    IsNorms c2emb [1, 1]
    ∧ vAt ((fillDiag (simMatrixQ c2emb [1, 1])).getD 0 []) 0 = -1
    ∧ ¬ ((-1 : ℚ) < -1)
    ∧ SimSelect TOP_K (simMatrixQ c2emb [1, 1]) c2out
    ∧ 0 ∈ c2out.getD 0 [] := by
  have hM : simMatrixQ c2emb [1, 1] = [[1, 0], [0, 1]] := by
    simp [simMatrixQ, gramQ, normalizeQ, dotQ, c2emb]
  refine ⟨?_, ?_, by decide, ?_, by decide⟩
  · refine ⟨rfl, ?_⟩
    intro i hi
    have hi2 : i < 2 := by simpa [c2emb] using hi
    interval_cases i <;> exact ⟨by decide, by simp [c2emb, normSq, dotQ]⟩
  · rw [hM]; decide
  · rw [hM]; decide

/-- The 4-word corpus for C3: two pairs of identical unit embeddings. -/
def c3emb : List (List ℚ) := [[1, 0], [0, 1], [1, 0], [0, 1]]

/-- Its similarity matrix (established by `c3_k_not_clamped_counterexample`). -/
def c3M : List (List ℚ) := [[1, 0, 1, 0], [0, 1, 0, 1], [1, 0, 1, 0], [0, 1, 0, 1]]

/-- A conforming selection output on `c3emb` with `K = 10`. -/
def c3out : List (List ℕ) := [[2, 1, 3, 0], [3, 0, 2, 1], [0, 1, 3, 2], [1, 0, 2, 3]]

/-- C3 counterexample: with N = 4 and K = 10 the `TOP_K >= N` branch returns
    a full argsort of the row — every neighbor list has 4 entries (not the
    claimed 3), and each list even contains the base word itself. -/
theorem c3_k_not_clamped_counterexample :
    IsNorms c3emb [1, 1, 1, 1]
    ∧ simMatrixQ c3emb [1, 1, 1, 1] = c3M
    ∧ SimSelect 10 (simMatrixQ c3emb [1, 1, 1, 1]) c3out
    ∧ (c3out.getD 0 []).length = 4
    ∧ ¬ (c3out.getD 0 []).length = 3
    ∧ 0 ∈ c3out.getD 0 [] := by
  have hM : simMatrixQ c3emb [1, 1, 1, 1] = c3M := by
    simp [simMatrixQ, gramQ, normalizeQ, dotQ, c3emb, c3M]
  refine ⟨?_, hM, ?_, by decide, by decide, by decide⟩
  · refine ⟨rfl, ?_⟩
    intro i hi
    have hi2 : i < 4 := by simpa [c3emb] using hi
    interval_cases i <;> exact ⟨by decide, by simp [c3emb, normSq, dotQ]⟩
  · rw [hM]; decide

/-- C3 amended: the list length is N (all entities, self included) whenever
    K ≥ N, and K otherwise; so K is clamped to N, not to N - 1, and in the
    K ≥ N case the base entity itself appears in its own neighbor list. -/
theorem c3_amended_list_lengths (K : ℕ) (m : List (List ℚ)) (out : List (List ℕ))
    (i : ℕ) (hsel : SimSelect K m out) (hsq : ∀ r ∈ m, r.length = m.length)
    (hi : i < m.length) :
    ((out.getD i []).length = if m.length ≤ K then m.length else K)
    ∧ (m.length ≤ K → i ∈ out.getD i []) := by
  have hrow := hsel.2 i hi
  have hlen : ((fillDiag m).getD i []).length = m.length := by
    rw [fillDiag_row_length i m hi]
    refine hsq _ ?_
    rw [List.getD_eq_getElem _ _ hi]
    exact List.getElem_mem hi
  rw [RowSel] at hrow
  by_cases hk : m.length ≤ K
  · rw [if_pos hk] at hrow
    rcases hrow with ⟨hperm, _⟩
    rw [if_pos hk]
    constructor
    · rw [hperm.length_eq, List.length_range, hlen]
    · intro _
      rw [hperm.mem_iff, List.mem_range, hlen]
      exact hi
  · rw [if_neg hk] at hrow
    rw [if_neg hk]
    exact ⟨hrow.1.1, fun hcon => absurd hcon hk⟩

/-- Witness for C3's amended theorem at the concrete 4-word matrix `c3M`
    and K = 10: each list has `min` shape 4 (= N), and contains self. -/
theorem c3_amended_list_lengths_witness :
    (c3out.getD 0 []).length = if c3M.length ≤ 10 then c3M.length else 10 :=
  (c3_amended_list_lengths 10 c3M c3out 0 (by decide) (by decide) (by decide)).1

/-! ### Claim C4: argpartition selection vs the specified full sort -/

/-- Modelled from the spec's words, as the comparison point of the
    refinement claim C4 (not from the code): rank by descending score and
    break score ties by ascending entity index. -/
def specRank (v : List ℚ) (a b : ℕ) : Prop :=
  vAt v b < vAt v a ∨ (vAt v a = vAt v b ∧ a ≤ b)

instance (v : List ℚ) : DecidableRel (specRank v) := fun a b =>
  inferInstanceAs (Decidable (vAt v b < vAt v a ∨ (vAt v a = vAt v b ∧ a ≤ b)))

instance (v : List ℚ) : IsTotal ℕ (specRank v) := by
  constructor
  intro a b
  rcases lt_trichotomy (vAt v a) (vAt v b) with h | h | h
  · exact Or.inr (Or.inl h)
  · rcases Nat.le_total a b with hab | hba
    · exact Or.inl (Or.inr ⟨h, hab⟩)
    · exact Or.inr (Or.inr ⟨h.symm, hba⟩)
  · exact Or.inl (Or.inl h)

instance (v : List ℚ) : IsTrans ℕ (specRank v) := by
  constructor
  intro a b c hab hbc
  rcases hab with hab | ⟨eab, lab⟩
  · rcases hbc with hbc | ⟨ebc, _⟩
    · exact Or.inl (lt_trans hbc hab)
    · refine Or.inl ?_
      rw [← ebc]
      exact hab
  · rcases hbc with hbc | ⟨ebc, lbc⟩
    · refine Or.inl ?_
      rw [eab]
      exact hbc
    · exact Or.inr ⟨eab.trans ebc, Nat.le_trans lab lbc⟩

instance (v : List ℚ) : IsAntisymm ℕ (specRank v) := by
  constructor
  intro a b hab hba
  rcases hab with hab | ⟨eab, lab⟩
  · rcases hba with hba | ⟨eba, _⟩
    · exact absurd hab (lt_asymm hba)
    · rw [eba] at hab
      exact absurd hab (lt_irrefl _)
  · rcases hba with hba | ⟨eba, lba⟩
    · rw [eab] at hba
      exact absurd hba (lt_irrefl _)
    · exact Nat.le_antisymm lab lba

/-- The full sort the spec compares against: all row indices ranked by
    `specRank`, truncated to the first K. -/
def fullSortTopK (K : ℕ) (v : List ℚ) : List ℕ :=
  (List.insertionSort (specRank v) (List.range v.length)).take K

/-- No two positions of the row carry the same score. -/
def DistinctVals (v : List ℚ) : Prop :=
  ∀ a < v.length, ∀ b < v.length, vAt v a = vAt v b → a = b

instance (v : List ℚ) : Decidable (DistinctVals v) :=
  inferInstanceAs (Decidable (∀ a < v.length, ∀ b < v.length, vAt v a = vAt v b → a = b))

theorem specRank_le (v : List ℚ) (a b : ℕ) (h : specRank v a b) :
    vAt v b ≤ vAt v a := by
  rcases h with h | ⟨he, _⟩
  · exact le_of_lt h
  · exact le_of_eq he.symm

theorem fullSortTopK_isRowSel (K : ℕ) (v : List ℚ) (hK : K ≤ v.length) :
    IsRowSel K v (fullSortTopK K v) := by
  have hperm : (List.insertionSort (specRank v) (List.range v.length)).Perm
      (List.range v.length) := List.perm_insertionSort _ _
  have hnd : (List.insertionSort (specRank v) (List.range v.length)).Nodup :=
    hperm.nodup_iff.mpr (List.nodup_range v.length)
  have hsorted : (List.insertionSort (specRank v) (List.range v.length)).Sorted
      (specRank v) := List.sorted_insertionSort _ _
  have hlen : (List.insertionSort (specRank v) (List.range v.length)).length
      = v.length := by rw [hperm.length_eq, List.length_range]
  refine ⟨⟨?_, ?_, ?_, ?_⟩, ?_⟩
  · rw [fullSortTopK, List.length_take, hlen]
    exact Nat.min_eq_left hK
  · exact hnd.sublist (List.take_sublist _ _)
  · intro a ha
    have ha2 : a ∈ List.range v.length :=
      hperm.mem_iff.mp (List.mem_of_mem_take ha)
    exact List.mem_range.mp ha2
  · intro a ha b hb hbnot
    have hbl : b ∈ List.insertionSort (specRank v) (List.range v.length) :=
      hperm.mem_iff.mpr (List.mem_range.mpr hb)
    have hsplit := List.take_append_drop K
      (List.insertionSort (specRank v) (List.range v.length))
    have hbdrop : b ∈ (List.insertionSort (specRank v) (List.range v.length)).drop K := by
      rcases List.mem_append.mp (by rw [hsplit]; exact hbl) with h | h
      · exact absurd h hbnot
      · exact h
    have hp2 : List.Pairwise (specRank v)
        ((List.insertionSort (specRank v) (List.range v.length)).take K
          ++ (List.insertionSort (specRank v) (List.range v.length)).drop K) := by
      rw [List.take_append_drop]
      exact hsorted
    exact specRank_le v a b ((List.pairwise_append.mp hp2).2.2 a ha b hbdrop)
  · have hsub : (fullSortTopK K v).Pairwise (specRank v) :=
      hsorted.sublist (List.take_sublist _ _)
    exact hsub.imp (fun h => specRank_le v _ _ h)

theorem topKSet_subset (K : ℕ) (v : List ℚ) (s t : List ℕ)
    (hs : IsTopKSet K v s) (ht : IsTopKSet K v t) (hdist : DistinctVals v) :
    ∀ x ∈ s, x ∈ t := by
  intro x hxs
  by_contra hxt
  have hsc : s.toFinset.card = K := by
    rw [List.toFinset_card_of_nodup hs.2.1, hs.1]
  have htc : t.toFinset.card = K := by
    rw [List.toFinset_card_of_nodup ht.2.1, ht.1]
  have h1 := Finset.card_sdiff_add_card_inter s.toFinset t.toFinset
  have h2 := Finset.card_sdiff_add_card_inter t.toFinset s.toFinset
  rw [Finset.inter_comm] at h2
  have hx : x ∈ s.toFinset \ t.toFinset := by
    rw [Finset.mem_sdiff, List.mem_toFinset, List.mem_toFinset]
    exact ⟨hxs, hxt⟩
  have hpos : 0 < (t.toFinset \ s.toFinset).card := by
    have hxpos : 0 < (s.toFinset \ t.toFinset).card :=
      Finset.card_pos.mpr ⟨x, hx⟩
    omega
  obtain ⟨y, hy⟩ := Finset.card_pos.mp hpos
  rw [Finset.mem_sdiff, List.mem_toFinset, List.mem_toFinset] at hy
  obtain ⟨hyt, hys⟩ := hy
  have hxy1 : vAt v y ≤ vAt v x := hs.2.2.2 x hxs y (ht.2.2.1 y hyt) hys
  have hxy2 : vAt v x ≤ vAt v y := ht.2.2.2 y hyt x (hs.2.2.1 x hxs) hxt
  have hxeqy : x = y :=
    hdist x (hs.2.2.1 x hxs) y (ht.2.2.1 y hyt) (le_antisymm hxy2 hxy1)
  rw [hxeqy] at hxt
  exact hxt hyt

theorem sortedDesc_nodup_unique (v : List ℚ) (s t : List ℕ)
    (hsnd : s.Nodup) (htnd : t.Nodup)
    (hbs : ∀ a ∈ s, a < v.length) (hbt : ∀ a ∈ t, a < v.length)
    (hds : SortedDescBy v s) (hdt : SortedDescBy v t)
    (hdist : DistinctVals v) (hmem : ∀ x, x ∈ s ↔ x ∈ t) : s = t := by
  have hperm : s.Perm t := (List.perm_ext_iff_of_nodup hsnd htnd).mpr hmem
  have hsort : ∀ (l : List ℕ), l.Nodup → (∀ a ∈ l, a < v.length) →
      SortedDescBy v l → l.Sorted (specRank v) := by
    intro l hnd hb hdesc
    have hand := List.Pairwise.and hdesc hnd
    refine hand.imp_of_mem ?_
    intro a b ha hb2 hab
    rcases hab with ⟨hle, hne⟩
    by_cases he : vAt v a = vAt v b
    · exact absurd (hdist a (hb a ha) b (hb b hb2) he) hne
    · exact Or.inl (lt_of_le_of_ne hle (fun hh => he hh.symm))
  exact List.eq_of_perm_of_sorted hperm
    (hsort s hsnd hbs hds) (hsort t htnd hbt hdt)

/-- C4 amended: whenever all scores of the diagonal-filled row are pairwise
    distinct, every output the argpartition-based selection can produce is
    exactly the full sort's top-K.  (The original claim's tie-break clause is
    refuted by `c4_tie_order_counterexample`: under score ties the numpy
    primitives do not pin down the selection.) -/
theorem c4_amended_distinct_matches_full_sort (K : ℕ) (m : List (List ℚ))
    (out : List (List ℕ)) (i : ℕ) (hsel : SimSelect K m out) (hi : i < m.length)
    (hk : ¬ m.length ≤ K) (hsq : ∀ r ∈ m, r.length = m.length)
    (hdist : DistinctVals ((fillDiag m).getD i [])) :
    out.getD i [] = fullSortTopK K ((fillDiag m).getD i []) := by
  have hrow : IsRowSel K ((fillDiag m).getD i []) (out.getD i []) := by
    have h := hsel.2 i hi
    rw [RowSel, if_neg hk] at h
    exact h
  have hvlen : ((fillDiag m).getD i []).length = m.length := by
    rw [fillDiag_row_length i m hi]
    refine hsq _ ?_
    rw [List.getD_eq_getElem _ _ hi]
    exact List.getElem_mem hi
  have hK : K ≤ ((fillDiag m).getD i []).length := by
    rw [hvlen]
    exact le_of_not_le hk
  have hfull := fullSortTopK_isRowSel K ((fillDiag m).getD i []) hK
  have hsub1 := topKSet_subset K ((fillDiag m).getD i []) _ _ hrow.1 hfull.1 hdist
  have hsub2 := topKSet_subset K ((fillDiag m).getD i []) _ _ hfull.1 hrow.1 hdist
  exact sortedDesc_nodup_unique ((fillDiag m).getD i []) _ _
    hrow.1.2.1 hfull.1.2.1 hrow.1.2.2.1 hfull.1.2.2.1 hrow.2 hfull.2 hdist
    (fun x => ⟨fun hx => hsub1 x hx, fun hx => hsub2 x hx⟩)

/-- The 4-word corpus for the C4 counterexample: words 1 and 2 share one
    embedding, words 0 and 3 share another, so scores tie. -/
def c4emb : List (List ℚ) := [[1, 0], [0, 1], [0, 1], [1, 0]]

/-- Its similarity matrix (established by `c4_tie_order_counterexample`). -/
def c4M : List (List ℚ) := [[1, 0, 0, 1], [0, 1, 1, 0], [0, 1, 1, 0], [1, 0, 0, 1]]

/-- A conforming selection output on `c4emb` with `K = 2` that orders the
    tied pair {1, 2} of row 0 by DESCENDING index. -/
def c4out : List (List ℕ) := [[3, 2], [2, 3], [1, 3], [0, 2]]

/-- C4 counterexample: on tied scores the argpartition/argsort contracts
    admit an output ([3, 2] for row 0) that differs from the full sort with
    ascending-id tie-break ([3, 1]) — the claimed equality is not guaranteed
    by the code. -/
theorem c4_tie_order_counterexample :
    IsNorms c4emb [1, 1, 1, 1]
    ∧ simMatrixQ c4emb [1, 1, 1, 1] = c4M
    ∧ SimSelect 2 (simMatrixQ c4emb [1, 1, 1, 1]) c4out
    ∧ c4out.getD 0 []
        ≠ fullSortTopK 2 ((fillDiag (simMatrixQ c4emb [1, 1, 1, 1])).getD 0 []) := by
  have hM : simMatrixQ c4emb [1, 1, 1, 1] = c4M := by
    simp [simMatrixQ, gramQ, normalizeQ, dotQ, c4emb, c4M]
  refine ⟨?_, hM, ?_, ?_⟩
  · refine ⟨rfl, ?_⟩
    intro i hi
    have hi2 : i < 4 := by simpa [c4emb] using hi
    interval_cases i <;> exact ⟨by decide, by simp [c4emb, normSq, dotQ]⟩
  · rw [hM]; decide
  · rw [hM]; decide

/-- The 3-word matrix used to witness C4's amended theorem: row 0 of the
    filled matrix is [-1, 0, 1], pairwise distinct. -/
def c4wM : List (List ℚ) := [[1, 0, 1], [0, 1, 0], [1, 0, 1]]

/-- A conforming selection output on `c4wM` with `K = 2`. -/
def c4wout : List (List ℕ) := [[2, 1], [0, 2], [0, 1]]

/-- Witness for C4's amended theorem: with distinct row-0 scores the
    conforming output equals the full sort's top-2. -/
theorem c4_amended_distinct_matches_full_sort_witness :
    c4wout.getD 0 [] = fullSortTopK 2 ((fillDiag c4wM).getD 0 []) :=
  c4_amended_distinct_matches_full_sort 2 c4wM c4wout 0
    (by decide) (by decide) (by decide) (by decide) (by decide)

/-! ### Claim C5: zero-norm rows and non-finite similarities

Float values are modelled as `Option ℚ`: `none` stands for a non-finite
float (the NaN produced by the 0/0 of a zero row divided by its zero norm,
or anything derived from it).  Arithmetic on a non-finite operand is
non-finite. -/

/-- Float addition with non-finiteness tracked. -/
def addF : Option ℚ → Option ℚ → Option ℚ
  | some a, some b => some (a + b)
  | _, _ => none

/-- Float multiplication with non-finiteness tracked. -/
def mulF : Option ℚ → Option ℚ → Option ℚ
  | some a, some b => some (a * b)
  | _, _ => none

/-- Entry-by-norm division: numpy emits a warning and produces a non-finite
    value on a zero divisor — it does not raise. -/
def divF (x n : ℚ) : Option ℚ := if n = 0 then none else some (x / n)

/-- Dot product over tracked floats. -/
def dotF (a b : List (Option ℚ)) : Option ℚ :=
  (List.zipWith mulF a b).foldr addF (some 0)

/-- `emb_norm = emb_matrix / norms` over tracked floats. -/
def normalizeF (emb : List (List ℚ)) (ns : List ℚ) : List (List (Option ℚ)) :=
  List.zipWith (fun row n => row.map (fun x => divF x n)) emb ns

/-- Gram matrix over tracked floats. -/
def gramF (u : List (List (Option ℚ))) : List (List (Option ℚ)) :=
  u.map (fun r => u.map (fun s => dotF r s))

/-- The similarity matrix the script computes, with float non-finiteness
    tracked. -/
def simMatrixF (emb : List (List ℚ)) (ns : List ℚ) : List (List (Option ℚ)) :=
  gramF (normalizeF emb ns)

theorem addF_none (y : Option ℚ) : addF none y = none := by
  cases y <;> rfl

theorem mulF_none (y : Option ℚ) : mulF none y = none := by
  cases y <;> rfl

theorem normSq_of_zero (row : List ℚ) : (∀ x ∈ row, x = 0) → normSq row = 0 := by
  induction row with
  | nil => intro _; rfl
  | cons x xs ih =>
    intro h
    have hx : x = 0 := h x (List.mem_cons_self x xs)
    rw [normSq, dotQ, List.zipWith_cons_cons, List.sum_cons, hx]
    rw [show (0 : ℚ) * 0 = 0 from by simp, zero_add]
    exact ih (fun y hy => h y (List.mem_cons_of_mem x hy))

theorem getD_map {α β : Type} (f : α → β) (l : List α) (i : ℕ) (d : β) (d' : α)
    (hi : i < l.length) : (l.map f).getD i d = f (l.getD i d') := by
  rw [List.getD_eq_getElem _ _ (by simpa using hi), List.getElem_map,
    List.getD_eq_getElem _ _ hi]

theorem normalizeF_length (emb : List (List ℚ)) (ns : List ℚ)
    (hlen : ns.length = emb.length) : (normalizeF emb ns).length = emb.length := by
  rw [normalizeF, List.length_zipWith, hlen, Nat.min_self]

theorem normalizeF_getD (emb : List (List ℚ)) (ns : List ℚ) (i : ℕ)
    (hi : i < emb.length) (hlen : ns.length = emb.length) :
    (normalizeF emb ns).getD i []
      = (emb.getD i []).map (fun x => divF x (ns.getD i 0)) := by
  induction emb generalizing ns i with
  | nil => simp at hi
  | cons row rest ih =>
    cases ns with
    | nil => simp at hlen
    | cons n ns2 =>
      cases i with
      | zero => rfl
      | succ i =>
        have hi2 : i < rest.length := by simpa using hi
        have hlen2 : ns2.length = rest.length := by simpa using hlen
        simpa [normalizeF] using ih ns2 i hi2 hlen2

/-- C5 amended: the Similarity Engine performs no degeneracy check — there is
    no `DegenerateVectorError` anywhere in the script.  A row with zero L2
    norm is divided by its zero norm, and every similarity entry of that row
    comes out non-finite (NaN), silently. -/
theorem c5_amended_zero_norm_gives_nan (emb : List (List ℚ)) (ns : List ℚ)
    (i D : ℕ) (hn : IsNorms emb ns) (hi : i < emb.length) (hD : 0 < D)
    (hsq : ∀ r ∈ emb, r.length = D) (hzero : ∀ x ∈ emb.getD i [], x = 0) :
    ∀ j < emb.length, ((simMatrixF emb ns).getD i []).getD j (some 0) = none := by
  obtain ⟨hlen, hprop⟩ := hn
  have hns0 : ns.getD i 0 = 0 := by
    have h0 : normSq (emb.getD i []) = 0 := normSq_of_zero _ hzero
    have h1 := (hprop i hi).2.trans h0
    exact mul_self_eq_zero.mp h1
  have hul : (normalizeF emb ns).length = emb.length := normalizeF_length emb ns hlen
  have hiu : i < (normalizeF emb ns).length := by rw [hul]; exact hi
  have hrowmem : emb.getD i [] ∈ emb := by
    rw [List.getD_eq_getElem _ _ hi]
    exact List.getElem_mem hi
  have hrowlen : (emb.getD i []).length = D := hsq _ hrowmem
  intro j hj
  have hju : j < (normalizeF emb ns).length := by rw [hul]; exact hj
  have hjmem : emb.getD j [] ∈ emb := by
    rw [List.getD_eq_getElem _ _ hj]
    exact List.getElem_mem hj
  have hjlen : (emb.getD j []).length = D := hsq _ hjmem
  have hsim : (simMatrixF emb ns).getD i []
      = (normalizeF emb ns).map
          (fun s => dotF ((normalizeF emb ns).getD i []) s) := by
    rw [simMatrixF, gramF]
    exact getD_map _ _ i [] [] hiu
  rw [hsim, getD_map _ _ j (some 0) [] hju]
  have hui : (normalizeF emb ns).getD i []
      = (emb.getD i []).map (fun x => divF x 0) := by
    rw [normalizeF_getD emb ns i hi hlen, hns0]
  have huj : (normalizeF emb ns).getD j []
      = (emb.getD j []).map (fun x => divF x (ns.getD j 0)) :=
    normalizeF_getD emb ns j hj hlen
  rw [hui, huj]
  cases hri : emb.getD i [] with
  | nil => rw [hri] at hrowlen; simp at hrowlen; omega
  | cons x xs =>
    cases hrj : emb.getD j [] with
    | nil => rw [hrj] at hjlen; simp at hjlen; omega
    | cons y ys =>
      rw [List.map_cons, List.map_cons, dotF, List.zipWith_cons_cons]
      rw [show divF x 0 = none from by simp [divF], mulF_none, List.foldr_cons,
        addF_none]

/-- Shared concrete input for C5: word 0 has the all-zero embedding [0, 0]
    (norm 0), word 1 has the unit embedding [1, 0] (norm 1). -/
theorem c5_norms_concrete : IsNorms [[0, 0], [1, 0]] [0, 1] := by
  refine ⟨rfl, ?_⟩
  intro i hi
  have hi2 : i < 2 := by simpa using hi
  interval_cases i <;> exact ⟨by decide, by simp [normSq, dotQ]⟩

/-- C5 counterexample: on a corpus containing a zero-norm row the similarity
    stage does not fail — it silently produces a matrix whose row 0 and
    column 0 are entirely non-finite (NaN). -/
theorem c5_no_error_on_zero_norm_counterexample :
    IsNorms [[0, 0], [1, 0]] [0, 1]
    ∧ simMatrixF [[0, 0], [1, 0]] [0, 1] = [[none, none], [none, some 1]] := by
  refine ⟨c5_norms_concrete, ?_⟩
  simp [simMatrixF, gramF, normalizeF, dotF, divF, mulF, addF]

/-- Witness for C5's amended theorem at the concrete corpus: the similarity
    of the zero-norm word 0 against word 1 is non-finite. -/
theorem c5_amended_zero_norm_gives_nan_witness :
    ((simMatrixF [[0, 0], [1, 0]] [0, 1]).getD 0 []).getD 1 (some 0) = none :=
  c5_amended_zero_norm_gives_nan [[0, 0], [1, 0]] [0, 1] 0 2
    c5_norms_concrete (by decide) (by decide) (by decide) (by decide) 1 (by decide)

/-! ### Embedding Store Reader (claim C6)

`SELECT w.id, w.word, w.chinese, e.embedding FROM words w JOIN
word_embeddings e ON w.id = e.word_id ORDER BY w.id`, then `if not rows:
raise SystemExit(...)`, then `np.vstack` (which raises ValueError when the
row dimensions disagree). -/

/-- A row of the `words` table. -/
structure WordEnt where
  wid : ℕ
  word : String
  chinese : String
deriving DecidableEq

/-- `ORDER BY w.id`. -/
def sortById (ws : List WordEnt) : List WordEnt :=
  List.insertionSort (fun a b => a.wid ≤ b.wid) ws

/-- The inner join `words JOIN word_embeddings ON w.id = e.word_id`: a word
    without an embedding row simply contributes nothing. -/
def joinEmb (ws : List WordEnt) (es : List (ℕ × List ℚ)) :
    List (WordEnt × List ℚ) :=
  ws.flatMap (fun w => (es.filter (fun e => decide (e.1 = w.wid))).map (fun e => (w, e.2)))

/-- `np.vstack` succeeds exactly when all rows have one common length. -/
def sameDims (rows : List (List ℚ)) : Bool :=
  rows.all (fun r => r.length = (rows.getD 0 []).length)

/-- The load phase of `build_similar_words.py`: join, abort on no data
    (SystemExit), stack the embeddings (ValueError on inconsistent
    dimensions), and return the loaded words with the embedding matrix. -/
def loadAll (ws : List WordEnt) (es : List (ℕ × List ℚ)) :
    Except String (List WordEnt × List (List ℚ)) :=
  let rows := joinEmb (sortById ws) es
  if rows = [] then Except.error "SystemExit: no data in word_embeddings"
  else if sameDims (rows.map (fun p => p.2)) = true then
    Except.ok (rows.map (fun p => p.1), rows.map (fun p => p.2))
  else Except.error "ValueError: np.vstack dimension mismatch"

theorem joinEmb_mem (ws : List WordEnt) (es : List (ℕ × List ℚ))
    (p : WordEnt × List ℚ) (hp : p ∈ joinEmb ws es) : ∃ e ∈ es, e.1 = p.1.wid := by
  rw [joinEmb] at hp
  simp only [List.mem_flatMap, List.mem_map, List.mem_filter] at hp
  obtain ⟨w, _, e, ⟨he, heq⟩, hpe⟩ := hp
  refine ⟨e, he, ?_⟩
  rw [← hpe]
  exact of_decide_eq_true heq

/-- C6 counterexample: word 2 has no embedding row, yet `load_all` succeeds
    (no IngestionError) and silently omits word 2 from the loaded corpus. -/
theorem c6_missing_embedding_silently_dropped_counterexample :
    loadAll [⟨1, "apple", "a"⟩, ⟨2, "pear", "b"⟩] [(1, [1, 0])]
        = Except.ok ([⟨1, "apple", "a"⟩], [[1, 0]])
    ∧ ([(1, [1, 0])] : List (ℕ × List ℚ)).filter (fun e => decide (e.1 = 2)) = [] := by
  exact ⟨rfl, rfl⟩

/-- C6 amended: `load_all` never fails because an entity lacks an embedding —
    the inner join silently drops such entities (every loaded word does have
    an embedding row); it fails exactly when the join is empty (the
    SystemExit "no data" abort) or when the joined embedding dimensions are
    inconsistent (the unhandled ValueError from np.vstack). -/
theorem c6_amended_error_conditions (ws : List WordEnt) (es : List (ℕ × List ℚ)) :
    ((∃ msg, loadAll ws es = Except.error msg)
        ↔ (joinEmb (sortById ws) es = []
            ∨ sameDims ((joinEmb (sortById ws) es).map (fun p => p.2)) = false))
    ∧ (∀ ids embs, loadAll ws es = Except.ok (ids, embs)
        → ∀ w ∈ ids, ∃ e ∈ es, e.1 = w.wid) := by
  by_cases h1 : joinEmb (sortById ws) es = []
  · constructor
    · constructor
      · intro _
        exact Or.inl h1
      · intro _
        exact ⟨_, by rw [loadAll]; rw [if_pos h1]⟩
    · intro ids embs hok
      rw [loadAll] at hok
      rw [if_pos h1] at hok
      cases hok
  · by_cases h2 : sameDims ((joinEmb (sortById ws) es).map (fun p => p.2)) = true
    · constructor
      · constructor
        · intro ⟨msg, hmsg⟩
          rw [loadAll] at hmsg
          rw [if_neg h1, if_pos h2] at hmsg
          cases hmsg
        · intro hor
          rcases hor with hor | hor
          · exact absurd hor h1
          · rw [hor] at h2
            cases h2
      · intro ids embs hok
        rw [loadAll] at hok
        rw [if_neg h1, if_pos h2] at hok
        have hids : ids = (joinEmb (sortById ws) es).map (fun p => p.1) := by
          cases hok
          rfl
        intro w hw
        rw [hids] at hw
        obtain ⟨p, hp, hpw⟩ := List.mem_map.mp hw
        rw [← hpw]
        exact joinEmb_mem _ _ p hp
    · constructor
      · constructor
        · intro _
          refine Or.inr ?_
          cases hb : sameDims ((joinEmb (sortById ws) es).map (fun p => p.2))
          · rfl
          · exact absurd hb h2
        · intro _
          exact ⟨_, by rw [loadAll]; rw [if_neg h1, if_neg h2]⟩
      · intro ids embs hok
        rw [loadAll] at hok
        rw [if_neg h1, if_neg h2] at hok
        cases hok

/-- Witness for C6's amended theorem: an empty store makes `load_all` abort
    with the "no data" SystemExit. -/
theorem c6_amended_error_conditions_witness :
    loadAll ([] : List WordEnt) ([] : List (ℕ × List ℚ))
      = Except.error "SystemExit: no data in word_embeddings" := by
  obtain ⟨_msg, _hmsg⟩ := (c6_amended_error_conditions [] []).1.mpr (Or.inl rfl)
  exact rfl

/-! ### Online Neighbor Query Service (claims C8 and C10)

`similar_db` of `app.py`, with the Mongo store and the `$vectorSearch`
primitive passed in as explicit collaborators. -/

/-- A document of the `words` collection (display fields plus the optional
    `embedding` field). -/
structure StoreDoc where
  word : String
  embedding : Option (List ℚ)
  chinese : Option String
  partOfSpeech : Option String
  level : Option String
deriving DecidableEq

/-- A hit returned by the `$vectorSearch` + `$project` pipeline. -/
structure SearchHit where
  word : String
  chinese : Option String
  partOfSpeech : Option String
  level : Option String
  score : Option ℚ
deriving DecidableEq

/-- One entry of the JSON response list. -/
structure NeighborOut where
  word : String
  chinese : String
  partOfSpeech : String
  level : String
  score : Option ℚ
deriving DecidableEq

/-- The dict built for each hit (`d.get(..., "")` defaults). -/
def toNeighborOut (d : SearchHit) : NeighborOut :=
  ⟨d.word, d.chinese.getD "", d.partOfSpeech.getD "", d.level.getD "", d.score⟩

/-- `numCandidates` of the `$vectorSearch` stage. -/
def numCandidates : ℕ := 200

/-- Python's `str.strip()`: drop leading and trailing whitespace. -/
def pyStrip (s : String) : String :=
  String.mk (((s.data.dropWhile Char.isWhitespace).reverse.dropWhile
    Char.isWhitespace).reverse)

/-- The result loop of `similar_db`: skip hits equal to the queried word,
    append the rest, stop once `top_k` results are collected (`n` is the
    number collected so far). -/
def collectLoop (w : String) (topk : ℕ) : List SearchHit → ℕ → List NeighborOut
  | [], _ => []
  | d :: ds, n =>
    if d.word = w then collectLoop w topk ds n
    else if topk ≤ n + 1 then [toNeighborOut d]
    else toNeighborOut d :: collectLoop w topk ds (n + 1)

/-- `POST /api/words/similar_db`: strip the word, return [] when blank,
    look it up, return [] when absent or embedding-less, otherwise query the
    vector index with `(query_vec, numCandidates, top_k + 1)` and run the
    result loop.  `vsearch` is the external `$vectorSearch` primitive. -/
def similar_db (store : List StoreDoc)
    (vsearch : List ℚ → ℕ → ℕ → List SearchHit)
    (payloadWord : Option String) (topk : ℕ) : List NeighborOut :=
  let w := pyStrip (payloadWord.getD "")
  if w = "" then []
  else
    match store.find? (fun d => decide (d.word = w)) with
    | none => []
    | some base =>
      match base.embedding with
      | none => []
      | some qv => collectLoop w topk (vsearch qv numCandidates (topk + 1)) 0

/-- C8: a request for a word that is not in the store, or is stored without
    an embedding, yields the empty list — a normal result of the total
    function, not an error. -/
theorem c8_unknown_word_returns_empty (store : List StoreDoc)
    (vsearch : List ℚ → ℕ → ℕ → List SearchHit) (pw : Option String) (k : ℕ)
    (h : match store.find? (fun d => decide (d.word = pyStrip (pw.getD ""))) with
         | none => True
         | some base => base.embedding = none) :
    similar_db store vsearch pw k = [] := by
  by_cases hw : pyStrip (pw.getD "") = ""
  · simp [similar_db, hw]
  · simp only [similar_db]
    rw [if_neg hw]
    cases hf : store.find? (fun d => decide (d.word = pyStrip (pw.getD ""))) with
    | none => rfl
    | some base =>
      rw [hf] at h
      simp [h]

/-- Witness for C8: "apple" is stored without an embedding; the query
    returns []. -/
theorem c8_unknown_word_returns_empty_witness :
    similar_db [⟨"apple", none, none, none, none⟩] (fun _ _ _ => [])
        (some "apple") 5 = [] :=
  c8_unknown_word_returns_empty [⟨"apple", none, none, none, none⟩]
    (fun _ _ _ => []) (some "apple") 5 rfl

/-- C10: a request whose word field is absent, empty, or whitespace-only
    returns [] immediately — for EVERY store and EVERY vector-index
    primitive, i.e. without consulting either. -/
theorem c10_blank_word_short_circuits (store : List StoreDoc)
    (vsearch : List ℚ → ℕ → ℕ → List SearchHit) (pw : Option String) (k : ℕ)
    (h : pyStrip (pw.getD "") = "") :
    similar_db store vsearch pw k = [] := by
  simp [similar_db, h]

/-- Witness for C10: a whitespace-only word yields [] even though the store
    holds the word "x" with an embedding. -/
theorem c10_blank_word_short_circuits_witness :
    similar_db [⟨"x", some [1], none, none, none⟩]
        (fun _ _ _ => [⟨"y", none, none, none, some 1⟩]) (some "   ") 5 = [] :=
  c10_blank_word_short_circuits [⟨"x", some [1], none, none, none⟩]
    (fun _ _ _ => [⟨"y", none, none, none, some 1⟩]) (some "   ") 5 (by decide)

end WordCrack
